import Mathlib

/-!
Verification of the CFG→CNF normalizer and CYK parser of `proyecto2.py`.

The Python program is shallowly embedded:
* Python dicts are insertion-ordered association lists (`List (key × value)`).
* Python sets are duplicate-free insertion-ordered lists (`add` appends when absent).
* The fixed-point `while changed` loops are modelled by iterating the loop body
  a number of passes that is a static upper bound on the number of productive
  passes; once a pass adds nothing it is the identity, so any surplus passes
  leave the least fixed point unchanged, exactly as the source loop does.
* Fallible spots (uncaught `IndexError`s) are modelled with `Option`: `none`
  means the Python code raises.
-/

set_option maxRecDepth 4000
set_option linter.unusedVariables false

namespace Proyecto2

/-- A production body: an ordered list of symbols. -/
abbrev Body := List String

/-- Python dict from non-terminal to its ordered list of production bodies. -/
abbrev Rules := List (String × List Body)

/-- Keys of a dict, in insertion order. -/
def keysOf (d : List (String × α)) : List String := d.map (fun vp => vp.1)

/-- `d[k]` for a `defaultdict(list)`-style read: `[]` when the key is absent. -/
def lookupD (d : Rules) (k : String) : List Body :=
  match d.find? (fun vp => vp.1 == k) with
  | some vp => vp.2
  | none => []

/-- Python dict assignment `d[k] = v`: replace the value of the entry holding
`k` in place, else append a new entry.  Dicts reachable from the source never
hold a key twice, so updating the first match is the dict semantics. -/
def dinsert : Rules → String → List Body → Rules
  | [], k, v => [(k, v)]
  | vp :: d, k, v => if vp.1 == k then (k, v) :: d else vp :: dinsert d k v

/-- `defaultdict(list)`: `d[k].append(b)` (creates the key when absent). -/
def dappend : Rules → String → Body → Rules
  | [], k, b => [(k, [b])]
  | vp :: d, k, b =>
    if vp.1 == k then (vp.1, vp.2 ++ [b]) :: d else vp :: dappend d k b

/-- Splitting a character list on whitespace runs, accumulating the reversed
current word: the semantics of Python `str.split()` with no separator (no
empty words are produced). -/
def splitWSAux : List Char → List Char → List String
  | [], cur => if cur.isEmpty then [] else [String.mk cur.reverse]
  | c :: cs, cur =>
    if c.isWhitespace then
      if cur.isEmpty then splitWSAux cs []
      else String.mk cur.reverse :: splitWSAux cs []
    else splitWSAux cs (c :: cur)

/-- Python `str.split()` with no separator: split on whitespace runs. -/
def pySplit (s : String) : List String := splitWSAux s.data []

/-- Python `str.islower()`: at least one cased character and every cased
character lowercase (cased = alphabetic for the ASCII data of this program). -/
def pyIslower (s : String) : Bool :=
  s.data.any (fun c => c.isAlpha) && s.data.all (fun c => !c.isAlpha || c.isLower)

/-- The terminal test of `convert_terminals`:
`symbol.islower() or symbol in ['a', 'the']`. -/
def isTerminalSym (s : String) : Bool :=
  pyIslower s || s == "a" || s == "the"

/-- The input grammar shape: a start symbol and a dict from non-terminal to a
list of space-separated production strings. -/
structure CFG where
  start : String
  rules : List (String × List String)
deriving DecidableEq, Repr

/-- The converted grammar returned by `CFGtoCNF.convert`. -/
structure CNFG where
  start : String
  rules : Rules
deriving DecidableEq, Repr

/-- `CFGtoCNF.get_new_variable`: bump the counter, return `X{counter}`. -/
def get_new_variable (c : Nat) : String × Nat :=
  ("X" ++ toString (c + 1), c + 1)

/-- PASO 1, `CFGtoCNF.eliminate_start_symbol`: a fresh dict holding
`S0 -> <old start>` first, then every original rule with its bodies split. -/
def eliminate_start_symbol (g : CFG) : String × Rules :=
  let init : Rules := [("S0", [[g.start]])]
  ("S0", g.rules.foldl (fun acc vp => dinsert acc vp.1 (vp.2.map pySplit)) init)

/-- One sweep of the nullable fixed-point loop of
`CFGtoCNF.eliminate_epsilon_productions`. -/
def nullable_pass (g : Rules) (nl : List String) : List String :=
  g.foldl (fun nl vp =>
    if nl.contains vp.1 then nl
    else if vp.2.any (fun p => p.all (fun s => nl.contains s)) then nl ++ [vp.1]
    else nl) nl

/-- Iterate a loop body `n` times. -/
def iterN (f : α → α) : Nat → α → α
  | 0, a => a
  | n + 1, a => iterN f n (f a)

/-- The nullable set: `g.length + 1` sweeps reach the fixed point, since every
sweep before stabilization adds at least one of the at most `g.length` keys. -/
def nullable_of (g : Rules) : List String :=
  iterN (nullable_pass g) (g.length + 1) []

/-- `CFGtoCNF._generate_combinations`: despite its name it only appends the
production unchanged. -/
def generate_combinations (ng : Rules) (v : String) (p : Body) : Rules :=
  dappend ng v p

/-- PASO 2, `CFGtoCNF.eliminate_epsilon_productions`: computes the nullable
set; when it is non-empty, rebuilds the dict keeping every production other
than `['']`. -/
def eliminate_epsilon_productions (g : Rules) : Rules :=
  let nl := nullable_of g
  if nl.isEmpty then g
  else g.foldl (fun acc vp =>
    vp.2.foldl (fun acc p =>
      if p ≠ [""] then generate_combinations acc vp.1 p else acc) acc) []

/-- `unit_pairs[k]` (a `defaultdict(set)` read of an initialized key). -/
def upLookup (up : List (String × List String)) (k : String) : List String :=
  match up.find? (fun vp => vp.1 == k) with
  | some vp => vp.2
  | none => []

/-- `unit_pairs[k].add(c)` (the keys are pre-initialized, so the first match
is the entry; sets add at the end only when the element is absent). -/
def upAdd : List (String × List String) → String → String →
    List (String × List String)
  | [], k, c => [(k, [c])]
  | vp :: up, k, c =>
    if vp.1 == k then (vp.1, if vp.2.contains c then vp.2 else vp.2 ++ [c]) :: up
    else vp :: upAdd up k c

/-- One sweep of the unit-pair fixed-point loop of
`CFGtoCNF.eliminate_unit_productions`. -/
def unit_pass (g : Rules) (up : List (String × List String)) :
    List (String × List String) :=
  g.foldl (fun up vp =>
    vp.2.foldl (fun up p =>
      if p.length = 1 && (keysOf g).contains (p.headD "") then
        (upLookup up (p.headD "")).foldl (fun up c => upAdd up vp.1 c) up
      else up) up) up

/-- The unit-pair closure, seeded reflexively; `g.length ^ 2 + 1` sweeps are a
static bound on the passes the `while changed` loop can perform. -/
def unit_pairs_of (g : Rules) : List (String × List String) :=
  iterN (unit_pass g) (g.length * g.length + 1) (g.map (fun vp => (vp.1, [vp.1])))

/-- PASO 3, `CFGtoCNF.eliminate_unit_productions`: replace each variable's
productions by the non-unit productions of its unit-reachable variables,
deduplicated.  `p.headD ""` stands for `prod[0]`; `convert` only reaches this
pass on grammars without empty productions (on an empty production the source
raises `IndexError` at `prod[0]`, which `convert` models as `none`). -/
def eliminate_unit_productions (g : Rules) : Rules :=
  let up := unit_pairs_of g
  g.foldl (fun acc vp =>
    (upLookup up vp.1).foldl (fun acc b =>
      (lookupD g b).foldl (fun acc p =>
        if p.length > 1 || !((keysOf g).contains (p.headD "")) then
          if (lookupD acc vp.1).contains p then acc else dappend acc vp.1 p
        else acc) acc) acc) []

/-- State threaded through `convert_terminals`: the new dict, the
`terminal_vars` cache, and the fresh-variable counter. -/
structure CTSt where
  ng : Rules
  tv : List (String × String)
  ctr : Nat
deriving DecidableEq, Repr

/-- Process one symbol of a multi-symbol production in `convert_terminals`:
replace a terminal with its (possibly fresh) dedicated variable. -/
def ct_symbol (st : CTSt × Body) (s : String) : CTSt × Body :=
  if isTerminalSym s then
    match st.1.tv.find? (fun vp => vp.1 == s) with
    | some vp => (st.1, st.2 ++ [vp.2])
    | none =>
      let nv := get_new_variable st.1.ctr
      (⟨dinsert st.1.ng nv.1 [[s]], st.1.tv ++ [(s, nv.1)], nv.2⟩, st.2 ++ [nv.1])
  else (st.1, st.2 ++ [s])

/-- PASO 4, `CFGtoCNF.convert_terminals`: keep length-1 productions; in longer
productions replace every terminal by a dedicated fresh variable with a new
rule `FreshVar -> terminal`. -/
def convert_terminals (g : Rules) (ctr : Nat) : Rules × Nat :=
  let st := g.foldl (fun st vp =>
    vp.2.foldl (fun (st : CTSt) p =>
      if p.length = 1 then ⟨dappend st.ng vp.1 p, st.tv, st.ctr⟩
      else
        let r := p.foldl ct_symbol (st, [])
        ⟨dappend r.1.ng vp.1 r.2, r.1.tv, r.1.ctr⟩) st)
    (⟨[], [], ctr⟩ : CTSt)
  (st.ng, st.ctr)

/-- PASO 5, `CFGtoCNF.break_long_productions`: rewrite every production longer
than two symbols as a right-branching chain of binary productions. -/
def break_long_productions (g : Rules) (ctr : Nat) : Rules × Nat :=
  g.foldl (fun acc vp =>
    vp.2.foldl (fun (acc : Rules × Nat) p =>
      if p.length ≤ 2 then (dappend acc.1 vp.1 p, acc.2)
      else
        let r := (List.range (p.length - 2)).foldl
          (fun (st : Rules × Nat × String) i =>
            let nv := get_new_variable st.2.1
            (dappend st.1 st.2.2 [p.getD i "", nv.1], nv.2, nv.1))
          (acc.1, acc.2, vp.1)
        (dappend r.1 r.2.2 (p.drop (p.length - 2)), r.2.1)) acc) (([], ctr) : Rules × Nat)

/-- `CFGtoCNF.convert`: the five passes in sequence.  `none` models the
uncaught `IndexError` that `eliminate_unit_productions` raises at `prod[0]`
when the grammar reaching it contains an empty production. -/
def convert (g : CFG) : Option CNFG :=
  let s1 := eliminate_start_symbol g
  let g1 := eliminate_epsilon_productions s1.2
  if g1.any (fun vp => vp.2.any (fun p => p.isEmpty)) then none
  else
    let g2 := eliminate_unit_productions g1
    let g3 := convert_terminals g2 0
    let g4 := break_long_productions g3.1 g3.2
    some ⟨s1.1, g4.1⟩

/-! ## The CYK recognizer/parser (`class CYKParser`) -/

/-- The parser's own tokenization `sentence.lower().split()`. -/
def tokenize (s : String) : List String :=
  splitWSAux (s.data.map Char.toLower) []

/-- `CYKParser._build_reverse_grammar`: the list of `(body, variable)` pairs in
iteration order; `reverse_grammar[key]` is recovered by filtering on the body,
which preserves the append order of the `defaultdict(list)`. -/
def reverse_grammar (g : Rules) : List (Body × String) :=
  g.foldl (fun acc vp => vp.2.foldl (fun acc p => acc ++ [(p, vp.1)]) acc) []

/-- `self.reverse_grammar[(b, c)]` (empty when the key is absent). -/
def revLookup (rg : List (Body × String)) (b c : String) : List String :=
  (rg.filter (fun e => e.1 == [b, c])).map (fun e => e.2)

/-- A back-pointer entry: `(prod[0], None, None)` for a leaf or
`(B, C, k, i, i + k + 1)` for a binary step. -/
inductive BPE where
  | leaf (t : String)
  | node (b c : String) (k ls rs : Nat)
deriving DecidableEq, Repr

/-- One DP cell: `table[i][j]` (a set, kept as a duplicate-free list in
insertion order) together with `backpointer[i][j]` flattened to the list of
`(variable, entry)` pairs in append order. -/
structure Cell where
  tbl : List String
  bps : List (String × BPE)
deriving DecidableEq, Repr

/-- `table[i][j].add(var)` paired with `backpointer[i][j][var].append(e)`. -/
def addVar (cl : Cell) (v : String) (e : BPE) : Cell :=
  ⟨if cl.tbl.contains v then cl.tbl else cl.tbl ++ [v], cl.bps ++ [(v, e)]⟩

/-- `backpointer[i][j][var]` in append order. -/
def bpLookup (cl : Cell) (v : String) : List BPE :=
  (cl.bps.filter (fun e => e.1 == v)).map (fun e => e.2)

/-- PASO 1 of `CYKParser.parse`: the diagonal cell for `words[i]`. -/
def baseCell (g : Rules) (w : String) : Cell :=
  g.foldl (fun cl vp =>
    vp.2.foldl (fun cl p => if p = [w] then addVar cl vp.1 (BPE.leaf w) else cl) cl)
    ⟨[], []⟩

/-- PASO 2 of `CYKParser.parse`, as a fueled recursion on the span index:
cell `(i, j)` of the final tables.  The source fills the table by increasing
span length, and the cell for length `j + 1` reads only completed cells of
strictly smaller lengths, so the final tables satisfy exactly this recurrence;
`fuel ≥ j` reproduces them (`cykCellF_fuel` below). -/
def cykCellF (g : Rules) (rg : List (Body × String)) (words : List String) :
    Nat → Nat → Nat → Cell
  | _, i, 0 => baseCell g (words.getD i "")
  | 0, _, _ + 1 => ⟨[], []⟩
  | f + 1, i, j + 1 =>
    (List.range (j + 1)).foldl (fun cl k =>
      let left := cykCellF g rg words f i k
      let right := cykCellF g rg words f (i + k + 1) (j - k)
      left.tbl.foldl (fun cl b =>
        right.tbl.foldl (fun cl c =>
          (revLookup rg b c).foldl
            (fun cl a => addVar cl a (BPE.node b c k i (i + k + 1))) cl) cl) cl)
      ⟨[], []⟩

/-- The final content of `table[i][j]` / `backpointer[i][j]` after
`CYKParser.parse` has filled the tables. -/
def cykCell (g : Rules) (rg : List (Body × String)) (words : List String)
    (i j : Nat) : Cell :=
  cykCellF g rg words j i j

/-- What `CYKParser.parse` returns (the wall-clock time is dropped):
the accepted flag and, exactly when accepted, the parse data (the tables are
recomputed from the grammar and words by `cykCell`, which `parse` filled
deterministically from them). -/
structure ParseResult where
  accepted : Bool
  data : Option (List String)
deriving DecidableEq, Repr

/-- `CYKParser.parse`.  `none` models the uncaught `IndexError` raised by
`table[0][n - 1]` when the tokenized sentence is empty (`table` is `[]`). -/
def parse (g : CNFG) (s : String) : Option ParseResult :=
  let words := tokenize s
  match words with
  | [] => none
  | _ :: _ =>
    let rg := reverse_grammar g.rules
    let acc := (cykCell g.rules rg words 0 (words.length - 1)).tbl.contains g.start
    some ⟨acc, if acc then some words else none⟩

/-- The accepted flag of a parse, `false` standing for no result. -/
def acceptedOf : Option ParseResult → Bool
  | none => false
  | some r => r.accepted

/-- The parse data of a parse. -/
def dataOf : Option ParseResult → Option (List String)
  | none => none
  | some r => r.data

/-- The parse-tree node dict: a terminal leaf `{'symbol', 'terminal'}` or an
inner node `{'symbol', 'left', 'right'}` whose children may be `None`. -/
inductive PTree where
  | leaf (sym t : String)
  | node (sym : String) (l r : Option PTree)
deriving Repr

/-- The `'symbol'` tag of a node. -/
def PTree.sym : PTree → String
  | .leaf s _ => s
  | .node s _ _ => s

/-- The terminal leaves of a tree, left to right (`None` children contribute
nothing). -/
def PTree.leaves : PTree → List String
  | .leaf _ t => [t]
  | .node _ none none => []
  | .node _ none (some r) => r.leaves
  | .node _ (some l) none => l.leaves
  | .node _ (some l) (some r) => l.leaves ++ r.leaves

/-- The inner recursion `build_tree(var, i, j)` of `CYKParser.build_parse_tree`,
fueled.  In the leaf case the source returns `entry[0]` of the first entry
(that is the recorded terminal, or the left variable of a binary entry); in
the inner case it unpacks the first entry as a 5-tuple, which would raise on a
leaf entry — modelled as `none`, and unreachable for tables built by `parse`.
The source recursion has no fuel; its termination relies on the table
invariant `k < j`, under which `words.length` fuel is never exhausted
(`build_tree_spec` below). -/
def build_tree (g : Rules) (rg : List (Body × String)) (words : List String) :
    Nat → String → Nat → Nat → Option PTree
  | _, v, i, 0 =>
    match bpLookup (cykCell g rg words i 0) v with
    | [] => none
    | BPE.leaf t :: _ => some (PTree.leaf v t)
    | BPE.node b _ _ _ _ :: _ => some (PTree.leaf v b)
  | 0, _, _, _ + 1 => none
  | f + 1, v, i, j + 1 =>
    match bpLookup (cykCell g rg words i (j + 1)) v with
    | [] => none
    | BPE.leaf _ :: _ => none
    | BPE.node b c k ls rs :: _ =>
      some (PTree.node v (build_tree g rg words f b ls k)
        (build_tree g rg words f c rs (j - k)))

/-- `CYKParser.build_parse_tree`: `None` for missing parse data, otherwise the
recursive reconstruction from the start symbol over the full span. -/
def build_parse_tree (g : CNFG) (pd : Option (List String)) : Option PTree :=
  match pd with
  | none => none
  | some words =>
    build_tree g.rules (reverse_grammar g.rules) words words.length
      g.start 0 (words.length - 1)

/-! ## Concrete grammars used by the individual results -/

/-- A grammar that already uses `X1` as one of its own non-terminals, i.e. a
name inside the fresh-variable scheme of `get_new_variable`. -/
def gX1 : CFG := ⟨"S", [("S", ["a X1", "b X1"]), ("X1", ["c c"])]⟩

/-- `gX1` with the two productions of `S` reordered. -/
def gX1r : CFG := ⟨"S", [("S", ["b X1", "a X1"]), ("X1", ["c c"])]⟩

/-- A grammar whose non-terminal `A` has only the unit production `A -> A`:
unit elimination leaves `A` without productions and drops its entry, while
`A` stays referenced inside `S -> A b`. -/
def gUnitCycle : CFG := ⟨"S", [("S", ["A b"]), ("A", ["A"])]⟩

/-- A grammar whose start symbol `T` has no entry in the rules. -/
def gUndef : CFG := ⟨"T", [("S", ["a b"])]⟩

/-- A CNF grammar in which the non-terminal `A` directly yields the terminal
`a` but the start symbol `S` does not. -/
def gAB : CNFG := ⟨"S", [("S", [["A", "B"]]), ("A", [["a"]]), ("B", [["b"]])]⟩

/-- The smallest accepting CNF grammar: `S -> a`. -/
def gSa : CNFG := ⟨"S", [("S", [["a"]])]⟩

/-- The CFG counterpart of `gSa`. -/
def gSaCFG : CFG := ⟨"S", [("S", ["a"])]⟩

/-! ## Predicates used by the statements -/

/-- `d` satisfies `P` on every production of every variable. -/
def ProdsPred (P : Body → Prop) (d : Rules) : Prop :=
  ∀ vp ∈ d, ∀ p ∈ vp.2, P p

/-- A CNF terminal production: length 1 with a terminal body. -/
def TermProd (p : Body) : Prop :=
  p.length = 1 ∧ isTerminalSym (p.headD "") = true

/-- A production of length at least 2 all of whose symbols are non-terminal
symbols (the state after `convert_terminals`). -/
def WideProd (p : Body) : Prop :=
  2 ≤ p.length ∧ ∀ s ∈ p, isTerminalSym s = false

/-- A CNF binary production: length 2 with non-terminal symbols only. -/
def BinProd (p : Body) : Prop :=
  p.length = 2 ∧ ∀ s ∈ p, isTerminalSym s = false

/-! ## Fold and dict lemmas -/

/-- An invariant preserved by every step of a fold holds for its result. -/
theorem foldl_pres {P : β → Prop} {f : β → α → β}
    (l : List α) (init : β) (h0 : P init)
    (hstep : ∀ s a, a ∈ l → P s → P (f s a)) : P (l.foldl f init) := by
  induction l generalizing init with
  | nil => exact h0
  | cons a t ih =>
    exact ih (f init a) (hstep init a (List.mem_cons_self a t) h0)
      (fun s b hb hs => hstep s b (List.mem_cons_of_mem a hb) hs)

/-- Folds of functions that agree on the list's elements agree. -/
theorem foldl_congr_mem {f g : β → α → β}
    (l : List α) (init : β) (h : ∀ s a, a ∈ l → f s a = g s a) :
    l.foldl f init = l.foldl g init := by
  induction l generalizing init with
  | nil => rfl
  | cons a t ih =>
    rw [List.foldl_cons, List.foldl_cons, h init a (List.mem_cons_self a t)]
    exact ih _ (fun s b hb => h s b (List.mem_cons_of_mem a hb))

/-- Iterating a function from one of its fixed points stays there. -/
theorem iterN_fixed {f : α → α} {a : α} (h : f a = a) : ∀ n, iterN f n a = a
  | 0 => rfl
  | n + 1 => by rw [iterN, h, iterN_fixed h n]

theorem mem_dinsert {d : Rules} {k : String} {v : List Body} :
    ∀ vp ∈ dinsert d k v, vp ∈ d ∨ vp = (k, v) := by
  induction d with
  | nil => intro vp h; rw [dinsert] at h; right; simpa using h
  | cons hd t ih =>
    intro vp h
    rw [dinsert] at h
    by_cases hk : hd.1 == k
    · rw [if_pos hk] at h
      rcases List.mem_cons.mp h with h | h
      · right; exact h
      · left; exact List.mem_cons_of_mem hd h
    · rw [if_neg hk] at h
      rcases List.mem_cons.mp h with h | h
      · left; exact h ▸ List.mem_cons_self hd t
      · rcases ih vp h with h | h
        · left; exact List.mem_cons_of_mem hd h
        · right; exact h

theorem mem_dappend {d : Rules} {k : String} {b : Body} :
    ∀ vp ∈ dappend d k b, vp ∈ d ∨ ∃ l, vp = (k, l ++ [b]) ∧
      ((k, l) ∈ d ∨ l = []) := by
  induction d with
  | nil =>
    intro vp h; rw [dappend] at h
    right; exact ⟨[], by simpa using h, Or.inr rfl⟩
  | cons hd t ih =>
    intro vp h
    rw [dappend] at h
    by_cases hk : hd.1 == k
    · rw [if_pos hk] at h
      rcases List.mem_cons.mp h with h | h
      · right
        refine ⟨hd.2, ?_, Or.inl ?_⟩
        · rw [h, eq_of_beq hk]
        · rw [← eq_of_beq hk]; exact List.mem_cons_self hd t
      · left; exact List.mem_cons_of_mem hd h
    · rw [if_neg hk] at h
      rcases List.mem_cons.mp h with h | h
      · left; exact h ▸ List.mem_cons_self hd t
      · rcases ih vp h with h | ⟨l, hl, hmem⟩
        · left; exact List.mem_cons_of_mem hd h
        · right
          refine ⟨l, hl, ?_⟩
          rcases hmem with h2 | h2
          · exact Or.inl (List.mem_cons_of_mem hd h2)
          · exact Or.inr h2

theorem mem_keysOf_dinsert {d : Rules} {k : String} {v : List Body} (s : String) :
    s ∈ keysOf (dinsert d k v) ↔ s ∈ keysOf d ∨ s = k := by
  induction d with
  | nil => simp [dinsert, keysOf]
  | cons hd t ih =>
    rw [dinsert]
    by_cases hk : hd.1 == k
    · rw [if_pos hk]
      simp only [keysOf, List.map_cons, List.mem_cons] at *
      constructor
      · rintro (h | h)
        · right; exact h
        · left; right; exact h
      · rintro ((h | h) | h)
        · left; rw [h, eq_of_beq hk]
        · right; exact h
        · left; exact h
    · rw [if_neg hk]
      simp only [keysOf, List.map_cons, List.mem_cons] at *
      constructor
      · rintro (h | h)
        · left; left; exact h
        · rcases ih.mp h with h | h
          · left; right; exact h
          · right; exact h
      · rintro ((h | h) | h)
        · left; exact h
        · right; exact ih.mpr (Or.inl h)
        · right; exact ih.mpr (Or.inr h)

theorem mem_keysOf_dappend {d : Rules} {k : String} {b : Body} (s : String) :
    s ∈ keysOf (dappend d k b) ↔ s ∈ keysOf d ∨ s = k := by
  induction d with
  | nil => simp [dappend, keysOf]
  | cons hd t ih =>
    rw [dappend]
    by_cases hk : hd.1 == k
    · rw [if_pos hk]
      simp only [keysOf, List.map_cons, List.mem_cons]
      constructor
      · rintro (h | h)
        · left; left; exact h
        · left; right; exact h
      · rintro ((h | h) | h)
        · left; exact h
        · right; exact h
        · left; rw [h, ← eq_of_beq hk]
    · rw [if_neg hk]
      simp only [keysOf, List.map_cons, List.mem_cons] at *
      constructor
      · rintro (h | h)
        · left; left; exact h
        · rcases ih.mp h with h | h
          · left; right; exact h
          · right; exact h
      · rintro ((h | h) | h)
        · left; exact h
        · right; exact ih.mpr (Or.inl h)
        · right; exact ih.mpr (Or.inr h)

theorem lookupD_mem {d : Rules} {k : String} :
    ∀ p ∈ lookupD d k, ∃ vp ∈ d, vp.1 = k ∧ p ∈ vp.2 := by
  induction d with
  | nil => intro p h; simp [lookupD, List.find?] at h
  | cons hd t ih =>
    intro p h
    rw [lookupD, List.find?] at h
    by_cases hk : hd.1 == k
    · rw [hk] at h
      exact ⟨hd, List.mem_cons_self hd t, eq_of_beq hk, h⟩
    · rw [Bool.not_eq_true] at hk
      rw [hk] at h
      rcases ih p h with ⟨vp, hvp, hkey, hp⟩
      exact ⟨vp, List.mem_cons_of_mem hd hvp, hkey, hp⟩

theorem lookupD_dappend_self (d : Rules) (k : String) (b : Body) :
    lookupD (dappend d k b) k = lookupD d k ++ [b] := by
  induction d with
  | nil => simp [dappend, lookupD, List.find?]
  | cons hd t ih =>
    rw [dappend]
    by_cases hk : hd.1 == k
    · rw [if_pos hk, lookupD, lookupD, List.find?, List.find?, hk]
    · rw [Bool.not_eq_true] at hk
      rw [if_neg (by simp [hk]), lookupD, lookupD, List.find?, List.find?, hk]
      exact ih

theorem dappend_values_nodup {d : Rules} {k : String} {b : Body}
    (hvals : ∀ vp ∈ d, vp.2.Nodup) (hb : b ∉ lookupD d k) :
    ∀ vp ∈ dappend d k b, vp.2.Nodup := by
  induction d with
  | nil =>
    intro vp h; rw [dappend] at h
    simp only [List.mem_singleton] at h
    rw [h]; simp
  | cons hd t ih =>
    intro vp h
    rw [dappend] at h
    by_cases hk : hd.1 == k
    · rw [if_pos hk] at h
      rcases List.mem_cons.mp h with h | h
      · rw [h]
        have hd2 : hd.2.Nodup := hvals hd (List.mem_cons_self hd t)
        have hbhd : b ∉ hd.2 := by
          rw [lookupD, List.find?, hk] at hb
          exact hb
        simpa using List.Nodup.append hd2 (List.nodup_singleton b)
          (by simpa using hbhd)
      · exact hvals vp (List.mem_cons_of_mem hd h)
    · rw [if_neg hk] at h
      rcases List.mem_cons.mp h with h | h
      · exact h ▸ hvals hd (List.mem_cons_self hd t)
      · refine ih (fun vq hq => hvals vq (List.mem_cons_of_mem hd hq)) ?_ vp h
        rw [Bool.not_eq_true] at hk
        rw [lookupD, List.find?, hk] at hb
        exact hb

theorem dappend_fresh {d : Rules} {k : String} (b : Body)
    (h : k ∉ keysOf d) : dappend d k b = d ++ [(k, [b])] := by
  induction d with
  | nil => rfl
  | cons hd t ih =>
    rw [dappend]
    have hk : (hd.1 == k) = false := by
      rw [beq_eq_false_iff_ne]
      intro he
      exact h (by simp [keysOf, he])
    rw [if_neg (by simp [hk])]
    rw [List.cons_append]
    congr 1
    exact ih (fun hm => h (by simp [keysOf] at hm ⊢; right; exact hm))

/-! ## The epsilon pass -/

/-- Without empty productions nothing is nullable: one sweep from the empty
set adds nothing. -/
theorem nullable_pass_nil {g : Rules}
    (h : ∀ vp ∈ g, ∀ p ∈ vp.2, p ≠ []) : nullable_pass g [] = [] := by
  unfold nullable_pass
  refine @foldl_pres _ _ (fun nl => nl = []) _ g [] rfl ?_
  intro nl vp hvp hnl
  subst hnl
  have hany : (vp.2.any (fun p => p.all (fun s => List.contains ([] : List String) s)))
      = false := by
    rw [List.any_eq_false]
    intro p hp
    cases p with
    | nil => exact absurd rfl (h vp hvp [] hp)
    | cons a t => simp [List.all_cons, List.contains]
  simp only [hany, Bool.false_eq_true, if_false]
  rfl

/-- Without empty productions the nullable set is empty. -/
theorem nullable_of_nil {g : Rules}
    (h : ∀ vp ∈ g, ∀ p ∈ vp.2, p ≠ []) : nullable_of g = [] :=
  iterN_fixed (nullable_pass_nil h) (g.length + 1)

/-- Without empty productions the epsilon pass returns its input unchanged. -/
theorem eliminate_epsilon_id {g : Rules}
    (h : ∀ vp ∈ g, ∀ p ∈ vp.2, p ≠ []) :
    eliminate_epsilon_productions g = g := by
  unfold eliminate_epsilon_productions
  rw [nullable_of_nil h]
  rfl

theorem foldl_dappend_concat (ps : List Body) :
    ∀ (d : Rules) (k : String) (l : List Body), k ∉ keysOf d →
      ps.foldl (fun a p => dappend a k p) (d ++ [(k, l)]) = d ++ [(k, l ++ ps)] := by
  induction ps with
  | nil => intro d k l _; simp
  | cons q qs ih =>
    intro d k l hk
    rw [List.foldl_cons]
    have h1 : dappend (d ++ [(k, l)]) k q = d ++ [(k, l ++ [q])] := by
      clear ih
      induction d with
      | nil => simp [dappend]
      | cons hd t iht =>
        have hne : (hd.1 == k) = false := by
          rw [beq_eq_false_iff_ne]
          intro he
          exact hk (by simp [keysOf, he])
        rw [List.cons_append, dappend, if_neg (by simp [hne]), List.cons_append]
        congr 1
        exact iht (fun hm => hk (by simp [keysOf] at hm ⊢; right; exact hm))
    rw [h1, ih d k (l ++ [q]) hk, List.append_assoc]
    simp

/-- The rebuilding fold of the epsilon pass keeps, per variable in order, the
productions different from `['']`, dropping variables left without any. -/
theorem eps_fold (l : Rules) :
    ∀ (acc : Rules),
      (∀ vp ∈ l, ∀ p ∈ vp.2, p ≠ [""]) →
      (∀ vp ∈ l, vp.1 ∉ keysOf acc) →
      (keysOf l).Nodup →
      l.foldl (fun acc vp => vp.2.foldl
          (fun acc p => if p ≠ [""] then generate_combinations acc vp.1 p else acc)
          acc) acc
        = acc ++ l.filter (fun vp => !vp.2.isEmpty) := by
  induction l with
  | nil => intro acc _ _ _; simp
  | cons vp t ih =>
    intro acc hq hdisj hnd
    rw [List.foldl_cons]
    have hinner : vp.2.foldl
        (fun acc p => if p ≠ [""] then generate_combinations acc vp.1 p else acc) acc
        = vp.2.foldl (fun acc p => dappend acc vp.1 p) acc := by
      refine foldl_congr_mem vp.2 acc ?_
      intro s p hp
      rw [if_pos (hq vp (List.mem_cons_self vp t) p hp)]
      rfl
    rw [hinner]
    have hkey : vp.1 ∉ keysOf acc := hdisj vp (List.mem_cons_self vp t)
    have hnd2 : vp.1 ∉ keysOf t ∧ (keysOf t).Nodup := by
      unfold keysOf at hnd
      rw [List.map_cons] at hnd
      exact List.nodup_cons.mp hnd
    cases hv : vp.2 with
    | nil =>
      rw [List.foldl_nil]
      rw [ih acc (fun vq hq2 => hq vq (List.mem_cons_of_mem _ hq2))
        (fun vq hq2 => hdisj vq (List.mem_cons_of_mem _ hq2)) hnd2.2]
      simp [List.filter_cons, hv]
    | cons q qs =>
      rw [List.foldl_cons, dappend_fresh q hkey,
        foldl_dappend_concat qs acc vp.1 [q] hkey]
      have hkeys2 : ∀ vq ∈ t, vq.1 ∉ keysOf (acc ++ [(vp.1, [q] ++ qs)]) := by
        intro vq hvq hmem
        simp only [keysOf, List.map_append, List.mem_append, List.map_cons,
          List.mem_singleton, List.map_nil, List.mem_cons, List.not_mem_nil,
          or_false] at hmem
        rcases hmem with hmem | hmem
        · exact hdisj vq (List.mem_cons_of_mem _ hvq) hmem
        · refine hnd2.1 ?_
          rw [← hmem]
          exact List.mem_map_of_mem (fun e => e.1) hvq
      rw [ih (acc ++ [(vp.1, [q] ++ qs)])
        (fun vq hq2 => hq vq (List.mem_cons_of_mem _ hq2)) hkeys2 hnd2.2]
      rw [List.filter_cons, if_pos (by rw [hv]; rfl), List.append_assoc]
      have hvp : (vp.1, [q] ++ qs) = vp := by
        rw [List.singleton_append, ← hv]
      rw [hvp]
      rfl

/-- Claim C8 (amended): on a grammar without productions equal to `['']`
(production strings never split to them), `eliminate_epsilon_productions`
keeps every non-terminal's ordered production list exactly, except that when
the computed nullable set is non-empty, the rebuild drops the entries of
non-terminals whose production list is empty. -/
theorem eliminate_epsilon_shape (g : Rules)
    (hq : ∀ vp ∈ g, ∀ p ∈ vp.2, p ≠ [""])
    (hk : (keysOf g).Nodup) :
    eliminate_epsilon_productions g =
      if (nullable_of g).isEmpty then g
      else g.filter (fun vp => !vp.2.isEmpty) := by
  unfold eliminate_epsilon_productions
  by_cases hnl : (nullable_of g).isEmpty
  · rw [if_pos hnl, if_pos hnl]
  · rw [if_neg hnl, if_neg hnl]
    simpa using eps_fold g [] hq (by simp [keysOf]) hk

/-- Witness for `eliminate_epsilon_shape` at the grammar of `gSa`. -/
theorem eliminate_epsilon_shape_witness :
    eliminate_epsilon_productions [("S", [["a"]])] =
      if (nullable_of [("S", [["a"]])]).isEmpty then [("S", [["a"]])]
      else List.filter (fun vp => !vp.2.isEmpty) [("S", [["a"]])] :=
  eliminate_epsilon_shape [("S", [["a"]])] (by decide) (by decide)

/-! ## The unit-production pass -/

theorem prodsPred_dappend {P : Body → Prop} {d : Rules} {k : String} {b : Body}
    (hd : ProdsPred P d) (hb : P b) : ProdsPred P (dappend d k b) := by
  intro vq hvq p2 hp2
  rcases mem_dappend vq hvq with hv | ⟨l, hl, hlmem⟩
  · exact hd vq hv p2 hp2
  · rw [hl] at hp2
    rcases List.mem_append.mp hp2 with h2 | h2
    · rcases hlmem with hin | hnil
      · exact hd _ hin p2 h2
      · rw [hnil] at h2; simp at h2
    · rw [List.mem_singleton.mp h2]; exact hb

theorem prodsPred_dinsert {P : Body → Prop} {d : Rules} {k : String}
    {v : List Body} (hd : ProdsPred P d) (hv : ∀ p ∈ v, P p) :
    ProdsPred P (dinsert d k v) := by
  intro vq hvq p2 hp2
  rcases mem_dinsert vq hvq with h | h
  · exact hd vq h p2 hp2
  · rw [h] at hp2; exact hv p2 hp2

/-- Every production kept by unit elimination comes from the input grammar
and is non-unit: longer than one symbol or with a head that is no key. -/
theorem mem_eliminate_unit (g : Rules) :
    ProdsPred (fun p => (∃ vq ∈ g, p ∈ vq.2) ∧
      (1 < p.length ∨ p.headD "" ∉ keysOf g)) (eliminate_unit_productions g) := by
  unfold eliminate_unit_productions
  refine @foldl_pres _ _
    (ProdsPred (fun p => (∃ vq ∈ g, p ∈ vq.2) ∧
      (1 < p.length ∨ p.headD "" ∉ keysOf g)))
    _ g [] (by intro vp hvp; simp at hvp) ?_
  intro acc vp hvp hacc
  refine @foldl_pres _ _
    (ProdsPred (fun p => (∃ vq ∈ g, p ∈ vq.2) ∧
      (1 < p.length ∨ p.headD "" ∉ keysOf g)))
    _ (upLookup (unit_pairs_of g) vp.1) acc hacc ?_
  intro acc2 b _ hacc2
  refine @foldl_pres _ _
    (ProdsPred (fun p => (∃ vq ∈ g, p ∈ vq.2) ∧
      (1 < p.length ∨ p.headD "" ∉ keysOf g)))
    _ (lookupD g b) acc2 hacc2 ?_
  intro acc3 p hp hacc3
  by_cases hcond : (decide (p.length > 1) ||
      !((keysOf g).contains (p.headD ""))) = true
  · rw [if_pos hcond]
    by_cases hmem : ((lookupD acc3 vp.1).contains p) = true
    · rw [if_pos hmem]; exact hacc3
    · rw [if_neg hmem]
      refine prodsPred_dappend hacc3 ⟨?_, ?_⟩
      · rcases lookupD_mem p hp with ⟨vq2, hvq2, _, hpv⟩
        exact ⟨vq2, hvq2, hpv⟩
      · rw [Bool.or_eq_true] at hcond
        rcases hcond with h3 | h3
        · exact Or.inl (of_decide_eq_true h3)
        · refine Or.inr ?_
          intro hmem2
          have he := List.elem_eq_true_of_mem hmem2
          rw [Bool.not_eq_true'] at h3
          rw [List.contains] at h3
          rw [h3] at he
          exact Bool.false_ne_true he
  · rw [if_neg hcond]; exact hacc3

/-- Unit elimination only creates keys it saw, and keeps every variable's
production list duplicate-free. -/
theorem eliminate_unit_keys_nodup (g : Rules) :
    (∀ s ∈ keysOf (eliminate_unit_productions g), s ∈ keysOf g) ∧
    (∀ vp ∈ eliminate_unit_productions g, vp.2.Nodup) := by
  unfold eliminate_unit_productions
  refine @foldl_pres _ _
    (fun acc : Rules => (∀ s ∈ keysOf acc, s ∈ keysOf g) ∧ (∀ vp ∈ acc, vp.2.Nodup))
    _ g [] ⟨by simp [keysOf], by simp⟩ ?_
  intro acc vp hvp hacc
  refine @foldl_pres _ _
    (fun acc : Rules => (∀ s ∈ keysOf acc, s ∈ keysOf g) ∧ (∀ vp ∈ acc, vp.2.Nodup))
    _ (upLookup (unit_pairs_of g) vp.1) acc hacc ?_
  intro acc2 b _ hacc2
  refine @foldl_pres _ _
    (fun acc : Rules => (∀ s ∈ keysOf acc, s ∈ keysOf g) ∧ (∀ vp ∈ acc, vp.2.Nodup))
    _ (lookupD g b) acc2 hacc2 ?_
  intro acc3 p _ hacc3
  by_cases hcond : (decide (p.length > 1) ||
      !((keysOf g).contains (p.headD ""))) = true
  · rw [if_pos hcond]
    by_cases hmem : ((lookupD acc3 vp.1).contains p) = true
    · rw [if_pos hmem]; exact hacc3
    · rw [if_neg hmem]
      constructor
      · intro s hs
        rcases (mem_keysOf_dappend s).mp hs with h | h
        · exact hacc3.1 s h
        · rw [h]; exact List.mem_map_of_mem (fun e => e.1) hvp
      · refine dappend_values_nodup hacc3.2 ?_
        intro hcontra
        exact hmem (List.elem_eq_true_of_mem hcontra)
  · rw [if_neg hcond]; exact hacc3

/-- Claim C7: after `eliminate_unit_productions`, no production of any
non-terminal has length 1 with a body that is a non-terminal defined in the
grammar (neither in the input nor in the resulting rules), and each
non-terminal's production list holds no duplicate bodies.  The hypothesis
restricts to grammars without empty productions, the only ones on which the
source pass returns instead of raising `IndexError`. -/
theorem eliminate_unit_no_unit_productions (g : Rules)
    (h : ∀ vp ∈ g, ∀ p ∈ vp.2, p ≠ []) :
    ∀ vp ∈ eliminate_unit_productions g,
      vp.2.Nodup ∧ ∀ p ∈ vp.2, p.length = 1 →
        p.headD "" ∉ keysOf g ∧
        p.headD "" ∉ keysOf (eliminate_unit_productions g) := by
  intro vp hvp
  refine ⟨(eliminate_unit_keys_nodup g).2 vp hvp, ?_⟩
  intro p hp hlen
  have h2 := (mem_eliminate_unit g vp hvp p hp).2
  have hnk : p.headD "" ∉ keysOf g := by
    rcases h2 with h2 | h2
    · rw [hlen] at h2; exact absurd h2 (lt_irrefl 1)
    · exact h2
  exact ⟨hnk, fun hc => hnk ((eliminate_unit_keys_nodup g).1 _ hc)⟩

/-- Witness for `eliminate_unit_no_unit_productions` on the grammar
`S0 -> S, S -> a`, instantiated at the rewritten entry of `S0`. -/
theorem eliminate_unit_no_unit_productions_witness :
    ([["a"]] : List Body).Nodup ∧
    (∀ p ∈ ([["a"]] : List Body), p.length = 1 →
      p.headD "" ∉ keysOf ([("S0", [["S"]]), ("S", [["a"]])] : Rules) ∧
      p.headD "" ∉ keysOf
        (eliminate_unit_productions [("S0", [["S"]]), ("S", [["a"]])])) :=
  eliminate_unit_no_unit_productions [("S0", [["S"]]), ("S", [["a"]])]
    (by decide) ("S0", [["a"]]) (by decide)

/-! ## Fresh variables and the start pass -/

theorem append_X_data (t : String) : ("X" ++ t).data = 'X' :: t.data := by
  cases t with
  | mk l => rfl

/-- A fresh variable `X{n}` is never classified as a terminal: its first
character is the uppercase `X` and it differs from `a` and `the`. -/
theorem isTerminalSym_X_append (t : String) : isTerminalSym ("X" ++ t) = false := by
  unfold isTerminalSym pyIslower
  have hall : (("X" ++ t).data.all (fun c => !c.isAlpha || c.isLower)) = false := by
    rw [append_X_data, List.all_cons]
    have hX : (!('X'.isAlpha) || 'X'.isLower) = false := by decide
    rw [hX, Bool.false_and]
  have ha : (("X" ++ t) == "a") = false := by
    rw [beq_eq_false_iff_ne]
    intro h
    have hd := congrArg String.data h
    rw [append_X_data] at hd
    have hc : 'X' = 'a' := (List.cons.injEq _ _ _ _ ▸ hd).1
    exact absurd hc (by decide)
  have hthe : (("X" ++ t) == "the") = false := by
    rw [beq_eq_false_iff_ne]
    intro h
    have hd := congrArg String.data h
    rw [append_X_data] at hd
    have hc : 'X' = 't' := (List.cons.injEq _ _ _ _ ▸ hd).1
    exact absurd hc (by decide)
  rw [hall, Bool.and_false, ha, hthe]
  rfl

/-- Fresh variables are non-terminal symbols. -/
theorem isTerminalSym_fresh (c : Nat) :
    isTerminalSym (get_new_variable c).1 = false :=
  isTerminalSym_X_append (toString (c + 1))

/-- The start pass keeps `S0` and every original key among its keys. -/
theorem eliminate_start_keys (g : CFG) :
    "S0" ∈ keysOf (eliminate_start_symbol g).2 ∧
    ∀ s ∈ keysOf g.rules, s ∈ keysOf (eliminate_start_symbol g).2 := by
  unfold eliminate_start_symbol
  constructor
  · refine @foldl_pres _ _ (fun acc : Rules => "S0" ∈ keysOf acc) _ g.rules _
      (by simp [keysOf]) ?_
    intro acc vp _ h
    exact (mem_keysOf_dinsert _).mpr (Or.inl h)
  · intro s hs
    rcases List.mem_map.mp hs with ⟨vp, hvp, hkey⟩
    rcases List.append_of_mem hvp with ⟨l1, l2, hsplit⟩
    rw [hsplit]
    show s ∈ keysOf (List.foldl (fun acc vp => dinsert acc vp.1 (List.map pySplit vp.2))
      [("S0", [[g.start]])] (l1 ++ vp :: l2))
    rw [List.foldl_append, List.foldl_cons]
    refine @foldl_pres _ _ (fun acc : Rules => s ∈ keysOf acc) _ l2 _ ?_ ?_
    · exact (mem_keysOf_dinsert _).mpr (Or.inr hkey.symm)
    · intro acc vq _ h
      exact (mem_keysOf_dinsert _).mpr (Or.inl h)

/-- Every production after the start pass is `[start]` or a split original
production string. -/
theorem eliminate_start_prods (g : CFG) :
    ProdsPred (fun p => p = [g.start] ∨ ∃ vq ∈ g.rules, ∃ ps ∈ vq.2, p = pySplit ps)
      (eliminate_start_symbol g).2 := by
  unfold eliminate_start_symbol
  refine @foldl_pres _ _
    (ProdsPred (fun p => p = [g.start] ∨ ∃ vq ∈ g.rules, ∃ ps ∈ vq.2, p = pySplit ps))
    _ g.rules _ ?_ ?_
  · intro vp hvp p hp
    rcases List.mem_singleton.mp hvp with rfl
    exact Or.inl (List.mem_singleton.mp hp)
  · intro acc vp hvp hacc
    refine prodsPred_dinsert hacc ?_
    intro p hp
    rcases List.mem_map.mp hp with ⟨ps, hps, rfl⟩
    exact Or.inr ⟨vp, hvp, ps, hps, rfl⟩

/-- Under no-epsilon inputs, every production after the start pass is
non-empty. -/
theorem g1_nonempty (g : CFG)
    (h1 : ∀ vp ∈ g.rules, ∀ ps ∈ vp.2, pySplit ps ≠ []) :
    ∀ vp ∈ (eliminate_start_symbol g).2, ∀ p ∈ vp.2, p ≠ [] := by
  intro vp hvp p hp
  rcases eliminate_start_prods g vp hvp p hp with h | ⟨vq, hvq, ps, hps, rfl⟩
  · rw [h]; simp
  · exact h1 vq hvq ps hps

/-- Closed inputs stay closed through the start pass. -/
theorem g1_closed (g : CFG)
    (h2 : ∀ vp ∈ g.rules, ∀ ps ∈ vp.2, ∀ s ∈ pySplit ps,
      isTerminalSym s = false → s ∈ keysOf g.rules)
    (h3 : g.start ∈ keysOf g.rules) :
    ∀ vp ∈ (eliminate_start_symbol g).2, ∀ p ∈ vp.2, ∀ s ∈ p,
      isTerminalSym s = false → s ∈ keysOf (eliminate_start_symbol g).2 := by
  intro vp hvp p hp s hs hterm
  rcases eliminate_start_prods g vp hvp p hp with h | ⟨vq, hvq, ps, hps, rfl⟩
  · rw [h] at hs
    rw [List.mem_singleton.mp hs]
    exact (eliminate_start_keys g).2 _ h3
  · exact (eliminate_start_keys g).2 _ (h2 vq hvq ps hps s hs hterm)

/-- Without empty productions the `IndexError` guard of `convert` is off. -/
theorem convert_guard_false (g1 : Rules)
    (hne : ∀ vp ∈ g1, ∀ p ∈ vp.2, p ≠ []) :
    (g1.any (fun vp => vp.2.any (fun p => p.isEmpty))) = false := by
  rw [List.any_eq_false]
  intro vp hvp
  rw [Bool.not_eq_true, List.any_eq_false]
  intro p hp
  cases p with
  | nil => exact absurd rfl (hne vp hvp [] hp)
  | cons a t => simp

/-- After unit elimination on a closed no-epsilon grammar, productions are
non-empty and length-1 productions have terminal bodies. -/
theorem g2_shape (g1 : Rules)
    (hne : ∀ vp ∈ g1, ∀ p ∈ vp.2, p ≠ [])
    (hcl : ∀ vp ∈ g1, ∀ p ∈ vp.2, ∀ s ∈ p,
      isTerminalSym s = false → s ∈ keysOf g1) :
    ∀ vp ∈ eliminate_unit_productions g1, ∀ p ∈ vp.2,
      p ≠ [] ∧ (p.length = 1 → isTerminalSym (p.headD "") = true) := by
  intro vp hvp p hp
  obtain ⟨⟨vq, hvq, hpv⟩, hlen⟩ := mem_eliminate_unit g1 vp hvp p hp
  refine ⟨hne vq hvq p hpv, ?_⟩
  intro h1
  rcases List.length_eq_one.mp h1 with ⟨a, rfl⟩
  rcases hlen with h | h
  · simp at h
  · by_cases hterm : isTerminalSym a = true
    · exact hterm
    · exfalso
      refine h ?_
      exact hcl vq hvq [a] hpv a (by simp) (by rwa [Bool.not_eq_true] at hterm)

/-! ## Terminal conversion and binarization -/

/-- The symbol fold of `convert_terminals` preserves the shape invariant on
the accumulated dict and on `terminal_vars`, produces only non-terminal
symbols for the rewritten production, and adds one symbol per input
symbol. -/
theorem ct_symbol_fold (p : Body) :
    ∀ (stnp : CTSt × Body),
      ProdsPred (fun q => TermProd q ∨ WideProd q) stnp.1.ng →
      (∀ e ∈ stnp.1.tv, isTerminalSym e.2 = false) →
      (∀ s ∈ stnp.2, isTerminalSym s = false) →
      ProdsPred (fun q => TermProd q ∨ WideProd q) (p.foldl ct_symbol stnp).1.ng ∧
      (∀ e ∈ (p.foldl ct_symbol stnp).1.tv, isTerminalSym e.2 = false) ∧
      (∀ s ∈ (p.foldl ct_symbol stnp).2, isTerminalSym s = false) ∧
      (p.foldl ct_symbol stnp).2.length = stnp.2.length + p.length := by
  induction p with
  | nil =>
    intro stnp h1 h2 h3
    exact ⟨h1, h2, h3, by simp⟩
  | cons s rest ih =>
    intro stnp h1 h2 h3
    rw [List.foldl_cons]
    have hstep :
        ProdsPred (fun q => TermProd q ∨ WideProd q) (ct_symbol stnp s).1.ng ∧
        (∀ e ∈ (ct_symbol stnp s).1.tv, isTerminalSym e.2 = false) ∧
        (∀ s2 ∈ (ct_symbol stnp s).2, isTerminalSym s2 = false) ∧
        (ct_symbol stnp s).2.length = stnp.2.length + 1 := by
      unfold ct_symbol
      by_cases hterm : isTerminalSym s = true
      · rw [if_pos hterm]
        cases hfind : stnp.1.tv.find? (fun vp => vp.1 == s) with
        | some vp =>
          refine ⟨h1, h2, ?_, by simp⟩
          intro s2 hs2
          rcases List.mem_append.mp hs2 with h | h
          · exact h3 s2 h
          · rw [List.mem_singleton.mp h]
            exact h2 vp (List.mem_of_find?_eq_some hfind)
        | none =>
          refine ⟨?_, ?_, ?_, by simp⟩
          · refine prodsPred_dinsert h1 ?_
            intro q hq
            rw [List.mem_singleton.mp hq]
            exact Or.inl ⟨rfl, by simpa using hterm⟩
          · intro e he
            rcases List.mem_append.mp he with h | h
            · exact h2 e h
            · rw [List.mem_singleton.mp h]
              exact isTerminalSym_fresh stnp.1.ctr
          · intro s2 hs2
            rcases List.mem_append.mp hs2 with h | h
            · exact h3 s2 h
            · rw [List.mem_singleton.mp h]
              exact isTerminalSym_fresh stnp.1.ctr
      · rw [if_neg hterm]
        refine ⟨h1, h2, ?_, by simp⟩
        intro s2 hs2
        rcases List.mem_append.mp hs2 with h | h
        · exact h3 s2 h
        · rw [List.mem_singleton.mp h]
          rwa [Bool.not_eq_true] at hterm
    obtain ⟨k1, k2, k3, k4⟩ := hstep
    obtain ⟨m1, m2, m3, m4⟩ := ih (ct_symbol stnp s) k1 k2 k3
    refine ⟨m1, m2, m3, ?_⟩
    have hc := List.length_cons s rest
    omega

/-- `convert_terminals` leaves only terminal productions and multi-symbol
productions of non-terminal symbols. -/
theorem convert_terminals_shape (g : Rules) (ctr : Nat)
    (hg : ∀ vp ∈ g, ∀ p ∈ vp.2,
      p ≠ [] ∧ (p.length = 1 → isTerminalSym (p.headD "") = true)) :
    ProdsPred (fun q => TermProd q ∨ WideProd q) (convert_terminals g ctr).1 := by
  unfold convert_terminals
  refine (@foldl_pres _ _
    (fun st : CTSt =>
      ProdsPred (fun q => TermProd q ∨ WideProd q) st.ng ∧
      (∀ e ∈ st.tv, isTerminalSym e.2 = false))
    _ g (⟨[], [], ctr⟩ : CTSt) ⟨?_, ?_⟩ ?_).1
  · intro vp h; simp at h
  · intro e h; simp at h
  · intro st vp hvp hst
    refine @foldl_pres _ _
      (fun st : CTSt =>
        ProdsPred (fun q => TermProd q ∨ WideProd q) st.ng ∧
        (∀ e ∈ st.tv, isTerminalSym e.2 = false))
      _ vp.2 st hst ?_
    intro st2 p hp hst2
    by_cases hlen : p.length = 1
    · rw [if_pos hlen]
      exact ⟨prodsPred_dappend hst2.1 (Or.inl ⟨hlen, (hg vp hvp p hp).2 hlen⟩), hst2.2⟩
    · rw [if_neg hlen]
      obtain ⟨m1, m2, m3, m4⟩ := ct_symbol_fold p (st2, []) hst2.1 hst2.2 (by simp)
      refine ⟨prodsPred_dappend m1 (Or.inr ⟨?_, m3⟩), m2⟩
      rw [m4]
      have hne := (hg vp hvp p hp).1
      have h0 : p.length ≠ 0 := fun h0 => hne (List.length_eq_zero.mp h0)
      omega

/-- `break_long_productions` turns the result of `convert_terminals` into
productions that are single terminals or pairs of non-terminal symbols. -/
theorem break_long_shape (g : Rules) (ctr : Nat)
    (hg : ProdsPred (fun q => TermProd q ∨ WideProd q) g) :
    ProdsPred (fun q => TermProd q ∨ BinProd q) (break_long_productions g ctr).1 := by
  unfold break_long_productions
  refine @foldl_pres _ _
    (fun acc : Rules × Nat => ProdsPred (fun q => TermProd q ∨ BinProd q) acc.1)
    _ g (([], ctr) : Rules × Nat) ?_ ?_
  · intro vp h; simp at h
  · intro acc vp hvp hacc
    refine @foldl_pres _ _
      (fun acc : Rules × Nat => ProdsPred (fun q => TermProd q ∨ BinProd q) acc.1)
      _ vp.2 acc hacc ?_
    intro acc2 p hp hacc2
    rcases hg vp hvp p hp with hterm | ⟨hwlen, hwsym⟩
    · rw [if_pos (by rw [hterm.1]; omega)]
      exact prodsPred_dappend hacc2 (Or.inl hterm)
    · by_cases hle : p.length ≤ 2
      · rw [if_pos hle]
        exact prodsPred_dappend hacc2 (Or.inr ⟨by omega, hwsym⟩)
      · rw [if_neg hle]
        refine prodsPred_dappend ?_ (Or.inr ⟨?_, ?_⟩)
        · refine @foldl_pres _ _
            (fun st : Rules × Nat × String =>
              ProdsPred (fun q => TermProd q ∨ BinProd q) st.1)
            _ (List.range (p.length - 2)) ((acc2.1, acc2.2, vp.1) : Rules × Nat × String)
            hacc2 ?_
          intro st i hi hst
          refine prodsPred_dappend hst (Or.inr ⟨rfl, ?_⟩)
          intro s hs
          rcases List.mem_cons.mp hs with h | h
          · rw [h]
            have hilt : i < p.length := by
              have := List.mem_range.mp hi
              omega
            rw [List.getD_eq_getElem p "" hilt]
            exact hwsym _ (List.getElem_mem hilt)
          · rw [List.mem_singleton.mp h]
            exact isTerminalSym_fresh st.2.1
        · rw [List.length_drop]; omega
        · intro s hs
          exact hwsym s (List.drop_subset _ p hs)

/-- Claim C1 (amended): for every grammar accepted by `convert` that follows
the naming convention — no epsilon productions, every non-terminal-classified
symbol of a body defined, and a defined start symbol — every production of
the returned grammar has length 1 with a terminal body or length 2 with both
symbols non-terminal symbols.  (A length-2 symbol need not have an entry in
the returned rules: unit elimination can drop a non-terminal whose
productions were all unit, see `convert_body_symbol_undefined`.) -/
theorem convert_cnf_shape (g : CFG)
    (h1 : ∀ vp ∈ g.rules, ∀ ps ∈ vp.2, pySplit ps ≠ [])
    (h2 : ∀ vp ∈ g.rules, ∀ ps ∈ vp.2, ∀ s ∈ pySplit ps,
      isTerminalSym s = false → s ∈ keysOf g.rules)
    (h3 : g.start ∈ keysOf g.rules) :
    ∃ res, convert g = some res ∧
      ∀ vp ∈ res.rules, ∀ p ∈ vp.2,
        (p.length = 1 ∧ isTerminalSym (p.headD "") = true) ∨
        (p.length = 2 ∧ ∀ s ∈ p, isTerminalSym s = false) := by
  have hne := g1_nonempty g h1
  have hcl := g1_closed g h2 h3
  have heps : eliminate_epsilon_productions (eliminate_start_symbol g).2
      = (eliminate_start_symbol g).2 := eliminate_epsilon_id hne
  have hguard := convert_guard_false _ hne
  refine ⟨⟨"S0", (break_long_productions
    (convert_terminals (eliminate_unit_productions (eliminate_start_symbol g).2) 0).1
    (convert_terminals (eliminate_unit_productions (eliminate_start_symbol g).2) 0).2).1⟩,
    ?_, ?_⟩
  · show convert g = _
    simp only [convert]
    rw [heps, hguard]
    rfl
  · have hshape := break_long_shape _
      (convert_terminals (eliminate_unit_productions (eliminate_start_symbol g).2) 0).2
      (convert_terminals_shape _ 0 (g2_shape _ hne hcl))
    intro vp hvp p hp
    rcases hshape vp hvp p hp with h | h
    · exact Or.inl h
    · exact Or.inr h

/-- Witness for `convert_cnf_shape` on the grammar `S -> a`. -/
theorem convert_cnf_shape_witness :
    ∃ res, convert gSaCFG = some res ∧
      ∀ vp ∈ res.rules, ∀ p ∈ vp.2,
        (p.length = 1 ∧ isTerminalSym (p.headD "") = true) ∨
        (p.length = 2 ∧ ∀ s ∈ p, isTerminalSym s = false) :=
  convert_cnf_shape gSaCFG (by decide) (by decide) (by decide)

/-- Claim C3 (amended): `convert` validates nothing: for every grammar
without epsilon productions it completes normally and returns a grammar,
whether or not the start symbol or the referenced non-terminals have
entries — it never raises `MalformedGrammarError` (the source defines no
such error). -/
theorem convert_never_raises (g : CFG)
    (h1 : ∀ vp ∈ g.rules, ∀ ps ∈ vp.2, pySplit ps ≠ []) :
    (convert g).isSome = true := by
  have hne := g1_nonempty g h1
  have heps : eliminate_epsilon_productions (eliminate_start_symbol g).2
      = (eliminate_start_symbol g).2 := eliminate_epsilon_id hne
  have hguard := convert_guard_false _ hne
  simp only [convert]
  rw [heps, hguard]
  rfl

/-- Witness for `convert_never_raises` at the undefined-start grammar. -/
theorem convert_never_raises_witness :
    (convert gUndef).isSome = true :=
  convert_never_raises gUndef (by decide)

/-! ## CYK cell lemmas -/

theorem addVar_tbl_self (cl : Cell) (v : String) (e : BPE) :
    v ∈ (addVar cl v e).tbl := by
  show v ∈ (if cl.tbl.contains v then cl.tbl else cl.tbl ++ [v])
  by_cases hc : cl.tbl.contains v
  · rw [if_pos hc]; exact List.mem_of_elem_eq_true hc
  · rw [if_neg hc]; exact List.mem_append_right _ (List.mem_singleton_self v)

theorem addVar_tbl_mono {cl : Cell} {a : String} (v : String) (e : BPE)
    (h : a ∈ cl.tbl) : a ∈ (addVar cl v e).tbl := by
  show a ∈ (if cl.tbl.contains v then cl.tbl else cl.tbl ++ [v])
  by_cases hc : cl.tbl.contains v
  · rw [if_pos hc]; exact h
  · rw [if_neg hc]; exact List.mem_append_left _ h

theorem addVar_tbl_cases {cl : Cell} {v a : String} {e : BPE}
    (h : a ∈ (addVar cl v e).tbl) : a ∈ cl.tbl ∨ a = v := by
  have h2 : a ∈ (if cl.tbl.contains v then cl.tbl else cl.tbl ++ [v]) := h
  by_cases hc : cl.tbl.contains v
  · rw [if_pos hc] at h2; exact Or.inl h2
  · rw [if_neg hc] at h2
    rcases List.mem_append.mp h2 with h3 | h3
    · exact Or.inl h3
    · exact Or.inr (List.mem_singleton.mp h3)

theorem addVar_bps_cases {cl : Cell} {v : String} {e : BPE} {x : String × BPE}
    (h : x ∈ (addVar cl v e).bps) : x ∈ cl.bps ∨ x = (v, e) := by
  have h2 : x ∈ cl.bps ++ [(v, e)] := h
  rcases List.mem_append.mp h2 with h3 | h3
  · exact Or.inl h3
  · exact Or.inr (List.mem_singleton.mp h3)

theorem cellInv_addVar {cl : Cell} (v : String) (e : BPE)
    (h : ∀ a ∈ cl.tbl, ∃ e2, (a, e2) ∈ cl.bps) :
    ∀ a ∈ (addVar cl v e).tbl, ∃ e2, (a, e2) ∈ (addVar cl v e).bps := by
  intro a ha
  rcases addVar_tbl_cases ha with h2 | h2
  · rcases h a h2 with ⟨e2, he2⟩
    refine ⟨e2, ?_⟩
    show (a, e2) ∈ cl.bps ++ [(v, e)]
    exact List.mem_append_left _ he2
  · refine ⟨e, ?_⟩
    show (a, e) ∈ cl.bps ++ [(v, e)]
    rw [h2]
    exact List.mem_append_right _ (List.mem_singleton_self _)

theorem bpLookup_mem {cl : Cell} {v : String} :
    ∀ e ∈ bpLookup cl v, (v, e) ∈ cl.bps := by
  intro e he
  unfold bpLookup at he
  rcases List.mem_map.mp he with ⟨x, hx, hxe⟩
  have hx2 := List.mem_filter.mp hx
  have hx1 : x.1 = v := eq_of_beq (by simpa using hx2.2)
  have hxv : (v, e) = x := by rw [← hx1, ← hxe]
  rw [hxv]
  exact hx2.1

theorem mem_bpLookup {cl : Cell} {v : String} {e : BPE}
    (h : (v, e) ∈ cl.bps) : e ∈ bpLookup cl v := by
  unfold bpLookup
  exact List.mem_map.mpr ⟨(v, e), List.mem_filter.mpr ⟨h, by simp⟩, rfl⟩

theorem bpLookup_ne_nil {cl : Cell} {v : String}
    (hinv : ∀ a ∈ cl.tbl, ∃ e2, (a, e2) ∈ cl.bps) (hv : v ∈ cl.tbl) :
    bpLookup cl v ≠ [] := by
  rcases hinv v hv with ⟨e, he⟩
  intro hc
  exact absurd (hc ▸ mem_bpLookup he) (List.not_mem_nil e)

/-- Unfolding `cykCellF` at span index 0, for any fuel. -/
theorem cykCellF_zero (g : Rules) (rg : List (Body × String)) (words : List String)
    (f i : Nat) : cykCellF g rg words f i 0 = baseCell g (words.getD i "") := by
  cases f <;> rfl

/-- Unfolding `cykCellF` with exhausted fuel. -/
theorem cykCellF_fuel_zero (g : Rules) (rg : List (Body × String))
    (words : List String) (i j : Nat) :
    cykCellF g rg words 0 i (j + 1) = ⟨[], []⟩ := rfl

/-- Unfolding `cykCellF` at a positive span index with fuel to spare. -/
theorem cykCellF_succ (g : Rules) (rg : List (Body × String)) (words : List String)
    (f i j : Nat) :
    cykCellF g rg words (f + 1) i (j + 1) =
      (List.range (j + 1)).foldl (fun cl k =>
        (cykCellF g rg words f i k).tbl.foldl (fun cl b =>
          (cykCellF g rg words f (i + k + 1) (j - k)).tbl.foldl (fun cl c =>
            (revLookup rg b c).foldl
              (fun cl a => addVar cl a (BPE.node b c k i (i + k + 1))) cl) cl) cl)
        ⟨[], []⟩ := rfl

/-- Every variable of a table cell has at least one back-pointer entry. -/
theorem cellInv_baseCell (g : Rules) (w : String) :
    ∀ a ∈ (baseCell g w).tbl, ∃ e2, (a, e2) ∈ (baseCell g w).bps := by
  unfold baseCell
  refine @foldl_pres _ _
    (fun cl : Cell => ∀ a ∈ cl.tbl, ∃ e2, (a, e2) ∈ cl.bps) _ g ⟨[], []⟩ ?_ ?_
  · intro a ha; simp at ha
  · intro cl vp _ hcl
    refine @foldl_pres _ _
      (fun cl : Cell => ∀ a ∈ cl.tbl, ∃ e2, (a, e2) ∈ cl.bps) _ vp.2 cl hcl ?_
    intro cl2 p _ hcl2
    by_cases hp : p = [w]
    · rw [if_pos hp]; exact cellInv_addVar _ _ hcl2
    · rw [if_neg hp]; exact hcl2

theorem cellInv_cykCellF (g : Rules) (rg : List (Body × String))
    (words : List String) :
    ∀ f i j, ∀ a ∈ (cykCellF g rg words f i j).tbl,
      ∃ e2, (a, e2) ∈ (cykCellF g rg words f i j).bps := by
  intro f i j
  cases j with
  | zero => rw [cykCellF_zero]; exact cellInv_baseCell g (words.getD i "")
  | succ jj =>
    cases f with
    | zero => rw [cykCellF_fuel_zero]; intro a ha; simp at ha
    | succ ff =>
      rw [cykCellF_succ]
      refine @foldl_pres _ _
        (fun cl : Cell => ∀ a ∈ cl.tbl, ∃ e2, (a, e2) ∈ cl.bps)
        _ (List.range (jj + 1)) ⟨[], []⟩ (by intro a ha; simp at ha) ?_
      intro cl k _ hcl
      refine @foldl_pres _ _
        (fun cl : Cell => ∀ a ∈ cl.tbl, ∃ e2, (a, e2) ∈ cl.bps)
        _ (cykCellF g rg words ff i k).tbl cl hcl ?_
      intro cl2 b _ hcl2
      refine @foldl_pres _ _
        (fun cl : Cell => ∀ a ∈ cl.tbl, ∃ e2, (a, e2) ∈ cl.bps)
        _ (cykCellF g rg words ff (i + k + 1) (jj - k)).tbl cl2 hcl2 ?_
      intro cl3 c _ hcl3
      refine @foldl_pres _ _
        (fun cl : Cell => ∀ a ∈ cl.tbl, ∃ e2, (a, e2) ∈ cl.bps)
        _ (revLookup rg b c) cl3 hcl3 ?_
      intro cl4 a2 _ hcl4
      exact cellInv_addVar _ _ hcl4

/-- Diagonal back-pointer entries are leaves holding the cell's word. -/
theorem baseCell_bps (g : Rules) (w : String) :
    ∀ x ∈ (baseCell g w).bps, x.2 = BPE.leaf w := by
  unfold baseCell
  refine @foldl_pres _ _
    (fun cl : Cell => ∀ x ∈ cl.bps, x.2 = BPE.leaf w) _ g ⟨[], []⟩
    (by intro x hx; simp at hx) ?_
  intro cl vp _ hcl
  refine @foldl_pres _ _
    (fun cl : Cell => ∀ x ∈ cl.bps, x.2 = BPE.leaf w) _ vp.2 cl hcl ?_
  intro cl2 p _ hcl2
  by_cases hp : p = [w]
  · rw [if_pos hp]
    intro x hx
    rcases addVar_bps_cases hx with h | h
    · exact hcl2 x h
    · rw [h]
  · rw [if_neg hp]; exact hcl2

/-- The diagonal cell holds exactly the variables with a matching length-1
production. -/
theorem baseCell_tbl_iff (g : Rules) (w v : String) :
    v ∈ (baseCell g w).tbl ↔ ∃ vp ∈ g, vp.1 = v ∧ [w] ∈ vp.2 := by
  constructor
  · unfold baseCell
    refine @foldl_pres _ _
      (fun cl : Cell => v ∈ cl.tbl → ∃ vp ∈ g, vp.1 = v ∧ [w] ∈ vp.2)
      _ g ⟨[], []⟩ (by intro hv; simp at hv) ?_
    intro cl vp hvp hcl
    refine @foldl_pres _ _
      (fun cl : Cell => v ∈ cl.tbl → ∃ vp ∈ g, vp.1 = v ∧ [w] ∈ vp.2)
      _ vp.2 cl hcl ?_
    intro cl2 p hp hcl2 hv
    by_cases hpw : p = [w]
    · rw [if_pos hpw] at hv
      rcases addVar_tbl_cases hv with h | h
      · exact hcl2 h
      · exact ⟨vp, hvp, h.symm, hpw ▸ hp⟩
    · rw [if_neg hpw] at hv; exact hcl2 hv
  · rintro ⟨vp, hvp, hkey, hw⟩
    unfold baseCell
    rcases List.append_of_mem hvp with ⟨l1, l2, rfl⟩
    rw [List.foldl_append, List.foldl_cons]
    refine @foldl_pres _ _ (fun cl : Cell => v ∈ cl.tbl) _ l2 _ ?_ ?_
    · rcases List.append_of_mem hw with ⟨m1, m2, hm⟩
      rw [hm, List.foldl_append, List.foldl_cons, if_pos rfl]
      refine @foldl_pres _ _ (fun cl : Cell => v ∈ cl.tbl) _ m2 _ ?_ ?_
      · rw [← hkey]; exact addVar_tbl_self _ _ _
      · intro cl p _ h
        by_cases hpw : p = [w]
        · rw [if_pos hpw]; exact addVar_tbl_mono _ _ h
        · rw [if_neg hpw]; exact h
    · intro cl vq _ h
      refine @foldl_pres _ _ (fun cl : Cell => v ∈ cl.tbl) _ vq.2 cl h ?_
      intro cl2 p _ h2
      by_cases hpw : p = [w]
      · rw [if_pos hpw]; exact addVar_tbl_mono _ _ h2
      · rw [if_neg hpw]; exact h2

/-- Any fuel of at least the span index computes the same cell: the source
fills cells of span length `j + 1` from completed cells of strictly smaller
lengths. -/
theorem cykCellF_congr (g : Rules) (rg : List (Body × String))
    (words : List String) :
    ∀ j f1 f2 i, j ≤ f1 → j ≤ f2 →
      cykCellF g rg words f1 i j = cykCellF g rg words f2 i j := by
  intro j
  induction j using Nat.strong_induction_on with
  | _ j ih =>
    intro f1 f2 i h1 h2
    cases j with
    | zero => rw [cykCellF_zero, cykCellF_zero]
    | succ jj =>
      cases f1 with
      | zero => omega
      | succ ff1 =>
        cases f2 with
        | zero => omega
        | succ ff2 =>
          rw [cykCellF_succ, cykCellF_succ]
          refine foldl_congr_mem _ _ ?_
          intro cl k hk
          have hkle : k ≤ jj := by
            have := List.mem_range.mp hk; omega
          rw [ih k (by omega) ff1 ff2 i (by omega) (by omega),
            ih (jj - k) (by omega) ff1 ff2 (i + k + 1) (by omega) (by omega)]

theorem cykCellF_eq_cykCell (g : Rules) (rg : List (Body × String))
    (words : List String) {f i j : Nat} (h : j ≤ f) :
    cykCellF g rg words f i j = cykCell g rg words i j :=
  cykCellF_congr g rg words j f j i h (le_refl j)

/-- Back-pointer entries above the diagonal are binary steps whose left and
right variables sit in the corresponding sub-span cells. -/
theorem cykCell_bps_node (g : Rules) (rg : List (Body × String))
    (words : List String) (i jj : Nat) :
    ∀ x ∈ (cykCell g rg words i (jj + 1)).bps, ∃ b c k,
      x.2 = BPE.node b c k i (i + k + 1) ∧ k ≤ jj ∧
      b ∈ (cykCell g rg words i k).tbl ∧
      c ∈ (cykCell g rg words (i + k + 1) (jj - k)).tbl := by
  unfold cykCell
  rw [cykCellF_succ]
  refine @foldl_pres _ _
    (fun cl : Cell => ∀ x ∈ cl.bps, ∃ b c k,
      x.2 = BPE.node b c k i (i + k + 1) ∧ k ≤ jj ∧
      b ∈ (cykCell g rg words i k).tbl ∧
      c ∈ (cykCell g rg words (i + k + 1) (jj - k)).tbl)
    _ (List.range (jj + 1)) ⟨[], []⟩ (by intro x hx; simp at hx) ?_
  intro cl k hk hcl
  have hkle : k ≤ jj := by
    have := List.mem_range.mp hk; omega
  refine @foldl_pres _ _
    (fun cl : Cell => ∀ x ∈ cl.bps, ∃ b c k,
      x.2 = BPE.node b c k i (i + k + 1) ∧ k ≤ jj ∧
      b ∈ (cykCell g rg words i k).tbl ∧
      c ∈ (cykCell g rg words (i + k + 1) (jj - k)).tbl)
    _ (cykCellF g rg words jj i k).tbl cl hcl ?_
  intro cl2 b hb hcl2
  refine @foldl_pres _ _
    (fun cl : Cell => ∀ x ∈ cl.bps, ∃ b c k,
      x.2 = BPE.node b c k i (i + k + 1) ∧ k ≤ jj ∧
      b ∈ (cykCell g rg words i k).tbl ∧
      c ∈ (cykCell g rg words (i + k + 1) (jj - k)).tbl)
    _ (cykCellF g rg words jj (i + k + 1) (jj - k)).tbl cl2 hcl2 ?_
  intro cl3 c hc hcl3
  refine @foldl_pres _ _
    (fun cl : Cell => ∀ x ∈ cl.bps, ∃ b c k,
      x.2 = BPE.node b c k i (i + k + 1) ∧ k ≤ jj ∧
      b ∈ (cykCell g rg words i k).tbl ∧
      c ∈ (cykCell g rg words (i + k + 1) (jj - k)).tbl)
    _ (revLookup rg b c) cl3 hcl3 ?_
  intro cl4 a _ hcl4
  intro x hx
  rcases addVar_bps_cases hx with h | h
  · exact hcl4 x h
  · refine ⟨b, c, k, by rw [h], hkle, ?_, ?_⟩
    · rw [← cykCellF_eq_cykCell g rg words (hkle : k ≤ jj)]
      exact hb
    · rw [← cykCellF_eq_cykCell g rg words (Nat.sub_le jj k : jj - k ≤ jj)]
      exact hc

/-! ## Tree reconstruction -/

/-- Unfolding `build_tree` on the diagonal, for any fuel. -/
theorem build_tree_zero (g : Rules) (rg : List (Body × String))
    (words : List String) (f : Nat) (v : String) (i : Nat) :
    build_tree g rg words f v i 0 =
      match bpLookup (cykCell g rg words i 0) v with
      | [] => none
      | BPE.leaf t :: _ => some (PTree.leaf v t)
      | BPE.node b _ _ _ _ :: _ => some (PTree.leaf v b) := by
  cases f <;> rfl

/-- Unfolding `build_tree` above the diagonal with fuel to spare. -/
theorem build_tree_succ (g : Rules) (rg : List (Body × String))
    (words : List String) (f : Nat) (v : String) (i j : Nat) :
    build_tree g rg words (f + 1) v i (j + 1) =
      match bpLookup (cykCell g rg words i (j + 1)) v with
      | [] => none
      | BPE.leaf _ :: _ => none
      | BPE.node b c k ls rs :: _ =>
        some (PTree.node v (build_tree g rg words f b ls k)
          (build_tree g rg words f c rs (j - k))) := rfl

/-- The reconstruction invariant: with fuel at least the span index, an
in-range table variable is rebuilt into a tree rooted at that variable whose
terminal leaves are exactly the covered word span.  This also shows the
source recursion terminates on tables built by `parse`. -/
theorem build_tree_spec (g : Rules) (rg : List (Body × String))
    (words : List String) :
    ∀ j f i v, j ≤ f → i + j + 1 ≤ words.length →
      v ∈ (cykCell g rg words i j).tbl →
      ∃ t, build_tree g rg words f v i j = some t ∧ PTree.sym t = v ∧
        PTree.leaves t = (words.drop i).take (j + 1) := by
  intro j
  induction j using Nat.strong_induction_on with
  | _ j ih =>
    intro f i v hjf hrange hv
    cases j with
    | zero =>
      rw [build_tree_zero]
      have hcell : cykCell g rg words i 0 = baseCell g (words.getD i "") := by
        unfold cykCell; rw [cykCellF_zero]
      have hinv : ∀ a ∈ (cykCell g rg words i 0).tbl,
          ∃ e2, (a, e2) ∈ (cykCell g rg words i 0).bps :=
        cellInv_cykCellF g rg words 0 i 0
      have hne := bpLookup_ne_nil hinv hv
      cases hlk : bpLookup (cykCell g rg words i 0) v with
      | nil => exact absurd hlk hne
      | cons e rest =>
        have he : (v, e) ∈ (cykCell g rg words i 0).bps :=
          bpLookup_mem e (by rw [hlk]; exact List.mem_cons_self e rest)
        have hshape : e = BPE.leaf (words.getD i "") := by
          have hb := baseCell_bps g (words.getD i "") (v, e) (by rw [← hcell]; exact he)
          simpa using hb
        rw [hshape]
        refine ⟨PTree.leaf v (words.getD i ""), rfl, rfl, ?_⟩
        have hilt : i < words.length := by omega
        rw [List.getD_eq_getElem words "" hilt]
        rw [List.drop_eq_getElem_cons hilt]
        rfl
    | succ jj =>
      cases f with
      | zero => omega
      | succ ff =>
        have hinv : ∀ a ∈ (cykCell g rg words i (jj + 1)).tbl,
            ∃ e2, (a, e2) ∈ (cykCell g rg words i (jj + 1)).bps :=
          cellInv_cykCellF g rg words (jj + 1) i (jj + 1)
        have hne := bpLookup_ne_nil hinv hv
        cases hlk : bpLookup (cykCell g rg words i (jj + 1)) v with
        | nil => exact absurd hlk hne
        | cons e rest =>
          have he : (v, e) ∈ (cykCell g rg words i (jj + 1)).bps :=
            bpLookup_mem e (by rw [hlk]; exact List.mem_cons_self e rest)
          obtain ⟨b, c, k, hshape, hkle, hbmem, hcmem⟩ :=
            cykCell_bps_node g rg words i jj (v, e) he
          have hshape2 : e = BPE.node b c k i (i + k + 1) := hshape
          have hr1 : k < jj + 1 := by omega
          have hr2 : k ≤ ff := by omega
          have hr3 : i + k + 1 ≤ words.length := by omega
          have hr4 : jj - k < jj + 1 := by omega
          have hr5 : jj - k ≤ ff := by omega
          have hr6 : i + k + 1 + (jj - k) + 1 ≤ words.length := by omega
          obtain ⟨tl, htl, htlsym, htlleaves⟩ := ih k hr1 ff i b hr2 hr3 hbmem
          obtain ⟨tr, htr, htrsym, htrleaves⟩ :=
            ih (jj - k) hr4 ff (i + k + 1) c hr5 hr6 hcmem
          refine ⟨PTree.node v (some tl) (some tr), ?_, rfl, ?_⟩
          · rw [build_tree_succ, hlk, hshape2]
            show some (PTree.node v (build_tree g rg words ff b i k)
              (build_tree g rg words ff c (i + k + 1) (jj - k))) = _
            rw [htl, htr]
          · show tl.leaves ++ tr.leaves = (words.drop i).take (jj + 1 + 1)
            rw [htlleaves, htrleaves]
            have hd : List.drop (i + k + 1) words
                = List.drop (k + 1) (List.drop i words) := by
              rw [List.drop_drop]
              congr 1
            rw [hd, ← List.take_add]
            congr 1
            omega

/-- Claim C2: on an input that tokenizes to the empty token sequence,
`CYKParser.parse` reads `table[0][n - 1]` of the empty table and raises
`IndexError` (modelled by `none`) instead of returning a reject. -/
theorem parse_empty_tokens_raises (g : CNFG) (s : String) (h : tokenize s = []) :
    parse g s = none := by
  unfold parse
  rw [h]

/-- Witness for `parse_empty_tokens_raises` at the empty sentence. -/
theorem parse_empty_tokens_raises_witness :
    tokenize "" = [] ∧ parse gSa "" = none :=
  ⟨by decide, parse_empty_tokens_raises gSa "" (by decide)⟩

/-- Unfolding `parse` on a sentence with at least one token. -/
theorem parse_eq_cons (g : CNFG) (s : String) (w : String) (ws : List String)
    (h : tokenize s = w :: ws) :
    parse g s = some ⟨(cykCell g.rules (reverse_grammar g.rules) (w :: ws) 0
        ((w :: ws).length - 1)).tbl.contains g.start,
      if (cykCell g.rules (reverse_grammar g.rules) (w :: ws) 0
        ((w :: ws).length - 1)).tbl.contains g.start then some (w :: ws) else none⟩ := by
  unfold parse
  rw [h]

/-- Claim C4 (amended): over a CNF grammar, a sentence tokenizing to the
single token `w` is accepted iff the start symbol itself has the length-1
production `w` — it is not enough that some non-terminal yields `w`
(see `single_token_not_any_nonterminal`). -/
theorem parse_single_token (g : CNFG) (s w : String) (h : tokenize s = [w]) :
    acceptedOf (parse g s) = true ↔
      ∃ vp ∈ g.rules, vp.1 = g.start ∧ [w] ∈ vp.2 := by
  rw [parse_eq_cons g s w [] h]
  show ((cykCell g.rules (reverse_grammar g.rules) [w] 0 0).tbl.contains g.start)
      = true ↔ _
  have hcell : cykCell g.rules (reverse_grammar g.rules) [w] 0 0
      = baseCell g.rules w := by
    unfold cykCell
    rw [cykCellF_zero]
    rfl
  rw [hcell]
  constructor
  · intro hc
    exact (baseCell_tbl_iff g.rules w g.start).mp (List.mem_of_elem_eq_true hc)
  · intro hex
    exact List.elem_eq_true_of_mem ((baseCell_tbl_iff g.rules w g.start).mpr hex)

/-- Witness for `parse_single_token` at `S -> a` and the sentence `a`. -/
theorem parse_single_token_witness :
    tokenize "a" = ["a"] ∧
    (acceptedOf (parse gSa "a") = true ↔
      ∃ vp ∈ gSa.rules, vp.1 = gSa.start ∧ ["a"] ∈ vp.2) :=
  ⟨by decide, parse_single_token gSa "a" "a" (by decide)⟩

/-- Claim C6: for every sentence the parser accepts, `build_parse_tree` on
the returned parse data yields a tree whose terminal leaves, concatenated
left to right, are exactly the tokenized input. -/
theorem parse_build_roundtrip (g : CNFG) (s : String)
    (hacc : acceptedOf (parse g s) = true) :
    ∃ t, build_parse_tree g (dataOf (parse g s)) = some t ∧
      PTree.leaves t = tokenize s := by
  cases hw : tokenize s with
  | nil =>
    rw [parse_empty_tokens_raises g s hw] at hacc
    exact absurd hacc (by simp [acceptedOf])
  | cons w ws =>
    rw [parse_eq_cons g s w ws hw] at hacc ⊢
    have hacc2 : ((cykCell g.rules (reverse_grammar g.rules) (w :: ws) 0
        ((w :: ws).length - 1)).tbl.contains g.start) = true := hacc
    have hmem := List.mem_of_elem_eq_true hacc2
    rw [if_pos hacc2]
    show ∃ t, build_tree g.rules (reverse_grammar g.rules) (w :: ws)
      (w :: ws).length g.start 0 ((w :: ws).length - 1) = some t ∧
      PTree.leaves t = w :: ws
    have hlen : (w :: ws).length - 1 = ws.length := by
      rw [List.length_cons]
      omega
    rw [hlen] at hmem ⊢
    obtain ⟨t, ht, _, hleaves⟩ := build_tree_spec g.rules (reverse_grammar g.rules)
      (w :: ws) ws.length (w :: ws).length 0 g.start
      (by rw [List.length_cons]; omega) (by rw [List.length_cons]; omega) hmem
    refine ⟨t, ht, ?_⟩
    rw [hleaves, List.drop_zero]
    rw [show ws.length + 1 = (w :: ws).length from (List.length_cons w ws).symm]
    exact List.take_length (w :: ws)

/-- Witness for `parse_build_roundtrip` at `S -> a` and the sentence `a`. -/
theorem parse_build_roundtrip_witness :
    ∃ t, build_parse_tree gSa (dataOf (parse gSa "a")) = some t ∧
      PTree.leaves t = tokenize "a" :=
  parse_build_roundtrip gSa "a" (by decide)

/-- Claim C10: every variable of an in-range table cell after a parse has at
least one back-pointer entry, so whenever the parse accepts,
`build_parse_tree` returns a tree (not `None`) rooted at the grammar's start
symbol. -/
theorem parse_table_backpointer_inv (g : CNFG) (s : String) :
    (∀ i j v, i + j + 1 ≤ (tokenize s).length →
      v ∈ (cykCell g.rules (reverse_grammar g.rules) (tokenize s) i j).tbl →
      bpLookup (cykCell g.rules (reverse_grammar g.rules) (tokenize s) i j) v ≠ []) ∧
    (acceptedOf (parse g s) = true →
      ∃ t, build_parse_tree g (dataOf (parse g s)) = some t ∧
        PTree.sym t = g.start) := by
  constructor
  · intro i j v _ hv
    exact bpLookup_ne_nil (cellInv_cykCellF g.rules (reverse_grammar g.rules)
      (tokenize s) j i j) hv
  · intro hacc
    cases hw : tokenize s with
    | nil =>
      rw [parse_empty_tokens_raises g s hw] at hacc
      exact absurd hacc (by simp [acceptedOf])
    | cons w ws =>
      rw [parse_eq_cons g s w ws hw] at hacc ⊢
      have hacc2 : ((cykCell g.rules (reverse_grammar g.rules) (w :: ws) 0
          ((w :: ws).length - 1)).tbl.contains g.start) = true := hacc
      have hmem := List.mem_of_elem_eq_true hacc2
      rw [if_pos hacc2]
      show ∃ t, build_tree g.rules (reverse_grammar g.rules) (w :: ws)
        (w :: ws).length g.start 0 ((w :: ws).length - 1) = some t ∧
        PTree.sym t = g.start
      have hlen : (w :: ws).length - 1 = ws.length := by
        rw [List.length_cons]
        omega
      rw [hlen] at hmem ⊢
      obtain ⟨t, ht, hsym, _⟩ := build_tree_spec g.rules (reverse_grammar g.rules)
        (w :: ws) ws.length (w :: ws).length 0 g.start
        (by rw [List.length_cons]; omega) (by rw [List.length_cons]; omega) hmem
      exact ⟨t, ht, hsym⟩

/-- Witness for `parse_table_backpointer_inv` at `S -> a` and the
sentence `a`. -/
theorem parse_table_backpointer_inv_witness :
    (bpLookup (cykCell gSa.rules (reverse_grammar gSa.rules) (tokenize "a") 0 0)
      "S" ≠ []) ∧
    (∃ t, build_parse_tree gSa (dataOf (parse gSa "a")) = some t ∧
      PTree.sym t = gSa.start) :=
  ⟨(parse_table_backpointer_inv gSa "a").1 0 0 "S" (by decide) (by decide),
   (parse_table_backpointer_inv gSa "a").2 (by decide)⟩

/-! ## Concrete results -/

/-- Claim C1 (counterexample): on the accepted, convention-following, closed
grammar `gUnitCycle`, `convert` returns a grammar holding the length-2
production `A X1` whose first symbol `A` is a non-terminal symbol with no
entry in the returned rules, so not every length-2 production consists of
non-terminals defined in the grammar. -/
theorem convert_body_symbol_undefined :
    convert gUnitCycle =
      some ⟨"S0", [("X1", [["b"]]), ("S0", [["A", "X1"]]), ("S", [["A", "X1"]])]⟩ ∧
    isTerminalSym "A" = false ∧
    "A" ∉ keysOf ([("X1", [["b"]]), ("S0", [["A", "X1"]]),
      ("S", [["A", "X1"]])] : Rules) := by decide

/-- Claim C3 (counterexample): the start symbol `T` of `gUndef` has no entry
in its rules, yet `convert` completes normally and returns a grammar — it
never raises `MalformedGrammarError` (no such validation exists in the
source). -/
theorem convert_undefined_start_no_error :
    "T" ∉ keysOf gUndef.rules ∧
    convert gUndef = some ⟨"S0", [("S0", [["T"]]), ("X1", [["a"]]),
      ("X2", [["b"]]), ("S", [["X1", "X2"]])]⟩ := by decide

/-- Claim C4 (counterexample): in `gAB`, the non-terminal `A` has the
length-1 production `a`, yet the single-token sentence `a` is rejected —
acceptance needs the start symbol itself to yield the terminal. -/
theorem single_token_not_any_nonterminal :
    gAB.rules.any (fun vp => vp.2.contains ["a"]) = true ∧
    acceptedOf (parse gAB "a") = false := by decide

/-- Claim C5: the code evaluated at the failing input.  Reordering the two
productions of `S` in `gX1` flips acceptance of the sentence `a a`, because
the fresh variable `X1` collides with the grammar's own non-terminal `X1`
and which terminal the colliding name ends up mapped to depends on the
production order. -/
theorem parse_reorder_dependent :
    (convert gX1).map (fun c => acceptedOf (parse c "a a")) = some true ∧
    (convert gX1r).map (fun c => acceptedOf (parse c "a a")) = some false := by
  decide

/-- Claim C8 (counterexample): on a grammar with a nullable non-terminal and
a non-terminal with an empty production list, `eliminate_epsilon_productions`
does not leave the grammar unchanged — the entry of `A` is dropped. -/
theorem epsilon_pass_changes_grammar :
    eliminate_epsilon_productions [("S", [[]]), ("A", [])] ≠
      [("S", [[]]), ("A", [])] := by decide

/-- Claim C9: the code evaluated at the failing input.  Over `gX1` the first
fresh variable returned by `get_new_variable` is the string `X1`, which is a
non-terminal already present in the input grammar; the conversion then
overwrites the colliding entry, so `X1`'s converted rules derive `a` instead
of only `c c`. -/
theorem fresh_variable_collision :
    (get_new_variable 0).1 = "X1" ∧ "X1" ∈ keysOf gX1.rules ∧
    (convert gX1).map (fun c => lookupD c.rules "X1") =
      some [["a"], ["X3", "X3"]] := by decide

end Proyecto2
